import Mathlib

/-
Verification of the tuigotchi-health task scheduler and companion state
machine.  The Rust sources are shallowly embedded:

  * chrono DateTime<Local> is modelled as a fixed-offset local clock: an
    instant is an integer number of seconds, a calendar day is 86400 s.
    Under a fixed offset `with_time(..).earliest()` always succeeds, so the
    DST fallback branch of Schedule::next_instance is unreachable in the
    model (the code comment itself calls it a time-change edge case).
  * eyre error values are modelled by small error inductives.
  * f32 arithmetic is modelled over the rationals; the f32 square root in
    the happiness score is an abstract parameter `sqrtFn` that theorems
    constrain by the properties they need (sqrtFn 0 = 0, positivity).
  * std Instant (monotonic clock) is a natural number; the several
    Instant::now() calls inside one LilGuyState::update tick are modelled
    as one value `now`.
  * thread_rng is an explicit oracle argument recording the draws made by
    LilGuyState::update.
-/

deriving instance DecidableEq for Except

namespace Tuigotchi

/- Fixed-offset model of chrono local time (src/task.rs). -/

def dayLen : Int := 86400

/- now.time() as seconds of day; Int emod of a positive number is in
   [0, dayLen). -/
def timeOfDay (t : Int) : Int := t % dayLen

def dayOf (t : Int) : Int := t / dayLen

/- now.with_time(tod) for a fixed-offset clock. -/
def withTime (t tod : Int) : Int := dayOf t * dayLen + tod

/- TaskType from src/task.rs. -/
inductive TaskType where
  | Eat
  | Drink
  | BrushTeeth
  | Shower
  | EyesRest
  | TakeMeds
  | Sleep
  | Bathroom
  | Other (descr : String)
deriving DecidableEq, Repr

/- Schedule from src/task.rs: Times(BTreeSet<NaiveTime>) is a finite set of
   times of day, Interval(std::time::Duration) a non-negative number of
   seconds. -/
inductive Schedule where
  | Times (times : Finset Int)
  | Interval (interval : Nat)
deriving DecidableEq

structure Task where
  ty : TaskType
  schedule : Schedule
  last_done : Int
deriving DecidableEq

/- The eyre report "No times in schedule!" (src/task.rs line 120). -/
inductive ScheduleError where
  | noTimes
deriving DecidableEq, Repr

/- Task::complete (src/task.rs lines 93-95). -/
def Task.complete (t : Task) (now : Int) : Task := { t with last_done := now }

/- Schedule::next_instance (src/task.rs lines 106-127).  In the
   fixed-offset model with_time always has an earliest inhabitant, so the
   duration_round fallbacks are dropped.  The BTreeSet cursor
   lower_bound(Excluded(now.time())).peek_next() is the least element of
   the set strictly above now.time(). -/
def Schedule.next_instance (s : Schedule) (now : Int) : Except ScheduleError Int :=
  match s with
  | .Times times =>
    if h : (times.filter (fun x => timeOfDay now < x)).Nonempty then
      .ok (withTime now ((times.filter (fun x => timeOfDay now < x)).min' h))
    else if h2 : times.Nonempty then
      -- If there's no next event, then it's tomorrow's first
      .ok (withTime (now + dayLen) (times.min' h2))
    else
      .error .noTimes
  | .Interval interval => .ok (now + (interval : Int))

/- src/task_manager.rs data model. -/

structure TaskDue where
  ty : TaskType
  when : Int
deriving DecidableEq

structure Tasks where
  past : List TaskDue
  current : List TaskDue
  upcoming : List TaskDue
deriving DecidableEq

structure TaskManager where
  tasks : List Task
  task_threshold : Int
deriving DecidableEq

/- The fields of config.rs read by the code modelled here. -/
structure Config where
  task_timeout : Nat
  task_timeout_max : Nat
  tasks : List Task
deriving DecidableEq

/- TaskManager::new (src/task_manager.rs lines 45-50): takes ownership of
   the config's task list, threshold from config.task_timeout. -/
def TaskManager.new (config : Config) : TaskManager :=
  { tasks := config.tasks, task_threshold := (config.task_timeout : Int) }

/- The loop body of TaskManager::tasks (src/task_manager.rs lines 52-79),
   recursing over the task list; pushing in iteration order corresponds to
   consing onto the classification of the remaining tasks. -/
def classifyList (threshold now : Int) : List Task → Except ScheduleError Tasks
  | [] => .ok { past := [], current := [], upcoming := [] }
  | task :: rest =>
    -- the `?` operator is an early return on the error case
    match task.schedule.next_instance task.last_done with
    | .error e => .error e
    | .ok w =>
      let task_due : TaskDue := { ty := task.ty, when := w }
      match classifyList threshold now rest with
      | .error e => .error e
      | .ok ts =>
        if now < task_due.when then
          .ok { ts with upcoming := task_due :: ts.upcoming }
        else if now - task_due.when < threshold then
          .ok { ts with current := task_due :: ts.current }
        else
          .ok { ts with past := task_due :: ts.past }

/- TaskManager::tasks (named tasksAt here because the Lean field and the
   method cannot share the name `tasks`). -/
def TaskManager.tasksAt (tm : TaskManager) (now : Int) : Except ScheduleError Tasks :=
  classifyList tm.task_threshold now tm.tasks

/- TaskManager::complete_tasks (src/task_manager.rs lines 81-86):
   iter_mut().filter(ty matches).for_each(complete) is a pointwise map. -/
def TaskManager.complete_tasks (tm : TaskManager) (ty : TaskType) (now : Int) : TaskManager :=
  { tm with tasks := tm.tasks.map (fun t => if t.ty = ty then t.complete now else t) }

/- src/interface/lil_guy.rs data model. -/

structure AnimationFrame where
  duration : Nat
  lines : List String
deriving DecidableEq

inductive LilGuyAnimation where
  | Idle
  | Walk
  | WalkLeft
  | WalkRight
  | Sad (level : Nat)
  | Want (t : TaskType)
  | Task (t : TaskType)
deriving DecidableEq, Repr

/- The eyre reports raised by Animations::get and
   LilGuyAnimation::fallback. -/
inductive AnimError where
  | noAnimation
  | noFallbackForIdle
deriving DecidableEq, Repr

/- LilGuyAnimation::fallback (src/interface/lil_guy.rs lines 148-162).
   The Rust match guards `if *t != TaskType::Other("".to_string())` become
   if-then-else on the same test; an unguarded Want/Task (the empty Other)
   falls through to the final catch-all arm giving Idle. -/
def LilGuyAnimation.fallback : LilGuyAnimation → Except AnimError LilGuyAnimation
  | .WalkLeft => .ok .Walk
  | .WalkRight => .ok .Walk
  | .Sad (n + 1) => .ok (.Sad n)
  | .Want t => if t = .Other "" then .ok .Idle else .ok (.Sad 0)
  | .Task t => if t = .Other "" then .ok .Idle else .ok (.Task (.Other ""))
  | .Idle => .error .noFallbackForIdle
  | .Walk => .ok .Idle
  | .Sad 0 => .ok .Idle

/- Depth of a key in the fallback table; every fallback step strictly
   decreases it, which is what makes Animations::get terminate. -/
def LilGuyAnimation.rank : LilGuyAnimation → Nat
  | .Idle => 0
  | .Walk => 1
  | .WalkLeft => 2
  | .WalkRight => 2
  | .Sad n => n + 1
  | .Want t => if t = .Other "" then 1 else 2
  | .Task t => if t = .Other "" then 1 else 2

theorem LilGuyAnimation.fallback_rank_lt {a b : LilGuyAnimation}
    (h : a.fallback = .ok b) : b.rank < a.rank := by
  cases a with
  | Sad n =>
    cases n with
    | zero => simp only [fallback] at h; cases h; simp [rank]
    | succ m => simp only [fallback] at h; cases h; simp [rank]
  | Want t =>
    by_cases ht : t = .Other "" <;>
      simp only [fallback, ht, if_true, if_false, reduceIte] at h <;>
      cases h <;> simp [rank, ht]
  | Task t =>
    by_cases ht : t = .Other "" <;>
      simp only [fallback, ht, if_true, if_false, reduceIte] at h <;>
      cases h <;> simp [rank, ht]
  | Idle => simp [fallback] at h
  | Walk => simp only [fallback] at h; cases h; simp [rank]
  | WalkLeft => simp only [fallback] at h; cases h; simp [rank]
  | WalkRight => simp only [fallback] at h; cases h; simp [rank]

/- The Animations table (src/interface/lil_guy.rs lines 53-58); the
   HashMap is an association list. -/
structure Animations where
  anims : List (LilGuyAnimation × List AnimationFrame)
  max_sadness : Nat
  max_bounds : Nat × Nat
deriving DecidableEq

/- The metadata part of Animations::load (src/interface/lil_guy.rs lines
   87-115), starting from the parsed key/frames pairs (the text-format
   parsing itself is not needed by any claim).  String byte length is
   modelled as character count. -/
def Animations.load (anims : List (LilGuyAnimation × List AnimationFrame)) : Animations :=
  { anims := anims
    max_sadness :=
      ((anims.map Prod.fst).filterMap fun a =>
        match a with
        | .Sad level => some level
        | _ => none).max?.getD 0
    max_bounds :=
      ( ((((anims.map Prod.snd).flatten.map AnimationFrame.lines).flatten.map
            String.length).max?).getD 1,
        ((((anims.map Prod.snd).flatten.map AnimationFrame.lines).map
            List.length).max?).getD 1 ) }

/- Animations::get_raw (src/interface/lil_guy.rs lines 124-126). -/
def Animations.get_raw (a : Animations) (anim : LilGuyAnimation) :
    Option (List AnimationFrame) :=
  (a.anims.find? (fun p => decide (p.1 = anim))).map Prod.snd

/- Animations::get (src/interface/lil_guy.rs lines 117-123): direct lookup,
   else recurse through the fallback; the fallback error for Idle is
   propagated.  The recursion is bounded by the key's rank: each fallback
   step strictly decreases it, so running the structurally recursive
   getAux with fuel rank+1 never hits the fuel-exhaustion base case, and
   Animations.get_eq below recovers the exact recursive equation of the
   Rust function. -/
def Animations.getAux (a : Animations) :
    Nat → LilGuyAnimation → Except AnimError (List AnimationFrame)
  | 0, _ => .error .noAnimation
  | fuel + 1, anim =>
    match a.get_raw anim with
    | some frames => .ok frames
    | none =>
      match anim.fallback with
      | .ok fb => a.getAux fuel fb
      | .error e => .error e

def Animations.get (a : Animations) (anim : LilGuyAnimation) :
    Except AnimError (List AnimationFrame) :=
  a.getAux (anim.rank + 1) anim

theorem Animations.getAux_congr (a : Animations) :
    ∀ (f1 f2 : Nat) (anim : LilGuyAnimation), anim.rank < f1 → anim.rank < f2 →
      a.getAux f1 anim = a.getAux f2 anim := by
  intro f1
  induction f1 with
  | zero => intro f2 anim h1 h2; omega
  | succ n ih =>
    intro f2 anim h1 h2
    match f2, h2 with
    | m + 1, h2 =>
      simp only [Animations.getAux]
      cases hr : a.get_raw anim with
      | some frames => rfl
      | none =>
        cases hf : anim.fallback with
        | ok fb =>
          have hlt := LilGuyAnimation.fallback_rank_lt hf
          exact ih m fb (by omega) (by omega)
        | error e => rfl

/- The defining equation of Animations::get. -/
theorem Animations.get_eq (a : Animations) (anim : LilGuyAnimation) :
    a.get anim = (match a.get_raw anim with
      | some frames => .ok frames
      | none =>
        (match anim.fallback with
          | .ok fb => a.get fb
          | .error e => .error e)) := by
  show a.getAux (anim.rank + 1) anim = _
  simp only [Animations.getAux]
  cases hr : a.get_raw anim with
  | some frames => rfl
  | none =>
    cases hf : anim.fallback with
    | ok fb =>
      have hlt := LilGuyAnimation.fallback_rank_lt hf
      exact a.getAux_congr _ _ fb (by omega) (by omega)
    | error e => rfl

/- LilGuyState (src/interface/lil_guy.rs lines 41-51); the colour field is
   presentation-only and omitted.  Monotonic instants and durations are
   naturals. -/
structure LilGuyState where
  animations : Animations
  current_animation : LilGuyAnimation
  animation_frame : Nat
  next_frame_time : Nat
  idle_animation_change : Nat
  idle_animation_time : Nat × Nat
  pos : Int × Int
deriving DecidableEq

/- LilGuyState::new (src/interface/lil_guy.rs lines 199-214), taking the
   already-loaded animation table. -/
def LilGuyState.new (animations : Animations) (idle_animation_time : Nat × Nat)
    (now : Nat) : LilGuyState :=
  { animations := animations
    current_animation := .Idle
    animation_frame := 0
    next_frame_time := now
    idle_animation_change := now
    idle_animation_time := idle_animation_time
    pos := (0, 0) }

/- matches!(self.current_animation, LilGuyAnimation::Task(_)). -/
def LilGuyAnimation.isTaskAnim : LilGuyAnimation → Bool
  | .Task _ => true
  | _ => false

/- The draws LilGuyState::update makes from thread_rng, as an oracle:
   gen_range over idle_animation_time, gen_ratio(1,3), gen_bool(0.5),
   gen_ratio(1,2). -/
structure RngOracle where
  gen_range : Nat
  ratio_1_3 : Bool
  coin : Bool
  ratio_1_2 : Bool
deriving DecidableEq

/- The sadness level of src/interface/lil_guy.rs lines 230-232:
   (((1.0 - happiness / 0.6) * (max_sadness as f32 + 1.0)).floor() as u32)
     .clamp(0, 1)
   The `as u32` cast of a non-negative float truncates, and clamps a
   negative one to 0, which Int.toNat does; `.clamp(0, 1)` on a Nat is
   `min _ 1`. -/
def sadLevelOf (max_sadness : Nat) (happiness : ℚ) : Nat :=
  ((⌊(1 - happiness / (3 / 5)) * ((max_sadness : ℚ) + 1)⌋).toNat).min 1

/- The transition-selection part of LilGuyState::update
   (src/interface/lil_guy.rs lines 222-266).  Returns the chosen animation
   (if any) together with the possibly re-rolled idle_animation_change
   deadline (the idle branch mutates it even when it picks no animation).
   room_bounds is ((x.start, x.end), (y.start, y.end)). -/
def chooseAnimation (s : LilGuyState) (happiness : ℚ) (ongoing_task : Option TaskType)
    (room_bounds : (Int × Int) × (Int × Int)) (wants : List TaskDue) (now : Nat)
    (rng : RngOracle) : Option LilGuyAnimation × Nat :=
  if s.pos.1 < room_bounds.1.1 then
    (some .WalkRight, s.idle_animation_change)
  else if room_bounds.1.2 < s.pos.1 + (s.animations.max_bounds.1 : Int) then
    (some .WalkLeft, s.idle_animation_change)
  else
    match ongoing_task with
    | some task => (some (.Task task), s.idle_animation_change)
    | none =>
      if happiness < 3 / 5 then
        let sad_level := sadLevelOf s.animations.max_sadness happiness
        match wants.findSome? (fun t =>
            (s.animations.get_raw (.Want t.ty)).map fun _ => t.ty) with
        | some ty => (some (.Want ty), s.idle_animation_change)
        | none => (some (.Sad sad_level), s.idle_animation_change)
      else if s.idle_animation_change < now then
        let next_change := now + rng.gen_range
        if rng.ratio_1_3 then
          (some (if rng.coin then .WalkLeft else .WalkRight), next_change)
        else if rng.ratio_1_2 then
          (some .Idle, next_change)
        else
          (none, next_change)
      else if s.current_animation.isTaskAnim then
        -- ongoing_task is none on this branch, so the is_none() conjunct
        -- of the Rust condition is true here
        (some .Idle, s.idle_animation_change)
      else
        (none, s.idle_animation_change)

/- The transition application of LilGuyState::update (src/interface/
   lil_guy.rs lines 267-273): on a change to a different key, reset the
   frame index to 0 and force the next frame evaluation at now. -/
def LilGuyState.applyTransition (s : LilGuyState) (new_animation : Option LilGuyAnimation)
    (idle_change : Nat) (now : Nat) : LilGuyState :=
  match new_animation with
  | some na =>
    if s.current_animation ≠ na then
      { s with current_animation := na
               animation_frame := 0
               next_frame_time := now
               idle_animation_change := idle_change }
    else
      { s with idle_animation_change := idle_change }
  | none => { s with idle_animation_change := idle_change }

/- The frame-advance phase of LilGuyState::update (src/interface/
   lil_guy.rs lines 274-288).  A failed Animations::get aborts with none
   (the Rust `?`); the indexing anim[self.animation_frame], which would
   panic out of bounds, is a checked lookup that also aborts with none. -/
def LilGuyState.updateFrame (s1 : LilGuyState) (now : Nat) : Option LilGuyState :=
  match s1.animations.get s1.current_animation with
  | .error _ => none
  | .ok anim =>
    if s1.next_frame_time < now then
      let f1 := s1.animation_frame + 1
      let f2 := if anim.length ≤ f1 then 0 else f1
      match anim.get? f2 with
      | none => none
      | some frame =>
        let s2 := { s1 with animation_frame := f2, next_frame_time := now + frame.duration }
        some (match s2.current_animation with
          | .WalkLeft => { s2 with pos := (s2.pos.1 - 1, s2.pos.2) }
          | .WalkRight => { s2 with pos := (s2.pos.1 + 1, s2.pos.2) }
          | _ => s2)
    else
      some s1

/- LilGuyState::update (src/interface/lil_guy.rs lines 215-289): choose a
   transition, apply it, then advance the frame. -/
def LilGuyState.update (s : LilGuyState) (happiness : ℚ) (ongoing_task : Option TaskType)
    (room_bounds : (Int × Int) × (Int × Int)) (wants : List TaskDue) (now : Nat)
    (rng : RngOracle) : Option LilGuyState :=
  let step := chooseAnimation s happiness ongoing_task room_bounds wants now rng
  (s.applyTransition step.1 step.2 now).updateFrame now

/- The happiness computation of InterfaceState::update (src/interface.rs
   lines 205-218).  sqrtFn abstracts f32::sqrt; f32::clamp(x, 0, 1) is
   min (max x 0) 1; (now - task.when).num_seconds() is exact integer
   seconds in this model. -/
def happinessScore (sqrtFn : ℚ → ℚ) (past : List TaskDue) (now : Int)
    (task_timeout task_timeout_max : Nat) : ℚ :=
  1 - min (max ((past.map fun task =>
        sqrtFn (max 0 ((((now - task.when : Int) : ℚ) - (task_timeout : ℚ)) /
          (task_timeout_max : ℚ)))).sum) 0) 1

/- The two timeout fields of InterfaceState and their initialization in
   InterfaceState::new (src/interface.rs lines 96-99): BOTH are assigned
   conf.task_timeout_max. -/
structure InterfaceTimeouts where
  task_timeout : Nat
  task_timeout_max : Nat
deriving DecidableEq

def interfaceStateNew (conf : Config) : InterfaceTimeouts :=
  { task_timeout := conf.task_timeout_max
    task_timeout_max := conf.task_timeout_max }

/- The happiness value InterfaceState::update actually computes, given the
   field initialization of InterfaceState::new. -/
def interfaceHappiness (conf : Config) (sqrtFn : ℚ → ℚ) (past : List TaskDue)
    (now : Int) : ℚ :=
  happinessScore sqrtFn past now (interfaceStateNew conf).task_timeout
    (interfaceStateNew conf).task_timeout_max

/- Arithmetic facts about the fixed-offset calendar. -/

theorem timeOfDay_withTime (t x : Int) (h0 : 0 ≤ x) (h1 : x < dayLen) :
    timeOfDay (withTime t x) = x := by
  unfold timeOfDay withTime dayOf dayLen at *
  omega

theorem dayOf_withTime (t x : Int) (h0 : 0 ≤ x) (h1 : x < dayLen) :
    dayOf (withTime t x) = dayOf t := by
  unfold withTime dayOf dayLen at *
  omega

theorem dayOf_add_dayLen (t : Int) : dayOf (t + dayLen) = dayOf t + 1 := by
  unfold dayOf dayLen
  omega

/-- C1: for a `Times` schedule with a non-empty set of in-range times of
day, `next_instance` returns the instant on the reference's calendar day
whose time of day is the least member of the set strictly above the
reference's time of day; when no member is strictly above, it returns the
smallest member applied to the following calendar day.  Consequently the
result's time of day exceeds the reference's, or the calendar day
advances. -/
theorem claim_C1 (ts : Finset Int) (now : Int) (hne : ts.Nonempty)
    (hb : ∀ x ∈ ts, 0 ≤ x ∧ x < dayLen) :
    ∃ r, (Schedule.Times ts).next_instance now = .ok r ∧
      ((∃ h : (ts.filter fun x => timeOfDay now < x).Nonempty,
          r = withTime now ((ts.filter fun x => timeOfDay now < x).min' h) ∧
          dayOf r = dayOf now ∧ timeOfDay now < timeOfDay r) ∨
        ((∀ x ∈ ts, x ≤ timeOfDay now) ∧
          r = withTime (now + dayLen) (ts.min' hne) ∧
          dayOf r = dayOf now + 1)) ∧
      (timeOfDay now < timeOfDay r ∨ dayOf now < dayOf r) := by
  by_cases h : (ts.filter fun x => timeOfDay now < x).Nonempty
  · have hmem := Finset.min'_mem _ h
    obtain ⟨hmts, hmgt⟩ := Finset.mem_filter.mp hmem
    obtain ⟨hb0, hb1⟩ := hb _ hmts
    refine ⟨withTime now ((ts.filter fun x => timeOfDay now < x).min' h), ?_, ?_, ?_⟩
    · simp only [Schedule.next_instance]
      rw [dif_pos h]
    · exact Or.inl ⟨h, rfl, dayOf_withTime _ _ hb0 hb1,
        by rw [timeOfDay_withTime _ _ hb0 hb1]; exact hmgt⟩
    · exact Or.inl (by rw [timeOfDay_withTime _ _ hb0 hb1]; exact hmgt)
  · have hall : ∀ x ∈ ts, x ≤ timeOfDay now := by
      intro x hx
      by_contra hc
      exact h ⟨x, Finset.mem_filter.mpr ⟨hx, by omega⟩⟩
    have hmts := ts.min'_mem hne
    obtain ⟨hb0, hb1⟩ := hb _ hmts
    refine ⟨withTime (now + dayLen) (ts.min' hne), ?_, ?_, ?_⟩
    · simp only [Schedule.next_instance]
      rw [dif_neg h, dif_pos hne]
    · exact Or.inr ⟨hall, rfl,
        by rw [dayOf_withTime _ _ hb0 hb1, dayOf_add_dayLen]⟩
    · refine Or.inr ?_
      rw [dayOf_withTime _ _ hb0 hb1, dayOf_add_dayLen]
      omega

/-- Witness for C1: times {08:00, 20:00} as seconds {28800, 72000},
reference at 09:00 of some day. -/
theorem claim_C1_witness :
    ∃ r, (Schedule.Times ({28800, 72000} : Finset Int)).next_instance 32400 = .ok r ∧
      (timeOfDay 32400 < timeOfDay r ∨ dayOf 32400 < dayOf r) := by
  obtain ⟨r, h1, _, h3⟩ := claim_C1 {28800, 72000} 32400 (by decide) (by decide)
  exact ⟨r, h1, h3⟩

/- Full characterization of a successful classification: list lengths,
the membership conditions of each bucket, and the placement of every
input task. -/
theorem classifyList_spec (threshold now : Int) :
    ∀ (l : List Task) (ts : Tasks), classifyList threshold now l = .ok ts →
      (ts.past.length + ts.current.length + ts.upcoming.length = l.length) ∧
      (∀ td ∈ ts.upcoming, now < td.when) ∧
      (∀ td ∈ ts.current, td.when ≤ now ∧ now - td.when < threshold) ∧
      (∀ td ∈ ts.past, td.when ≤ now ∧ threshold ≤ now - td.when) ∧
      (∀ task ∈ l, ∃ w, task.schedule.next_instance task.last_done = .ok w ∧
        ((now < w ∧ (⟨task.ty, w⟩ : TaskDue) ∈ ts.upcoming) ∨
         (w ≤ now ∧ now - w < threshold ∧ (⟨task.ty, w⟩ : TaskDue) ∈ ts.current) ∨
         (w ≤ now ∧ threshold ≤ now - w ∧ (⟨task.ty, w⟩ : TaskDue) ∈ ts.past))) := by
  intro l
  induction l with
  | nil =>
    intro ts h
    simp only [classifyList, Except.ok.injEq] at h
    subst h
    simp
  | cons task rest ih =>
    intro ts h
    simp only [classifyList] at h
    split at h
    · exact absurd h (by simp)
    · rename_i w hw
      split at h
      · exact absurd h (by simp)
      · rename_i ts' hr
        obtain ⟨hlen, hup, hcur, hpast, hall⟩ := ih ts' hr
        by_cases h1 : now < w
        · rw [if_pos h1] at h
          simp only [Except.ok.injEq] at h
          subst h
          refine ⟨by simp [hlen]; omega, ?_, hcur, hpast, ?_⟩
          · intro td htd
            rcases List.mem_cons.mp htd with heq | hmem
            · subst heq; exact h1
            · exact hup td hmem
          · intro t ht
            rcases List.mem_cons.mp ht with heq | hmem
            · subst heq
              exact ⟨w, hw, Or.inl ⟨h1, List.mem_cons_self _ _⟩⟩
            · obtain ⟨w', hw', hcase⟩ := hall t hmem
              refine ⟨w', hw', ?_⟩
              rcases hcase with ⟨ha, hb⟩ | hc | hd
              · exact Or.inl ⟨ha, List.mem_cons_of_mem _ hb⟩
              · exact Or.inr (Or.inl hc)
              · exact Or.inr (Or.inr hd)
        · by_cases h2 : now - w < threshold
          · rw [if_neg h1, if_pos h2] at h
            simp only [Except.ok.injEq] at h
            subst h
            refine ⟨by simp [hlen]; omega, hup, ?_, hpast, ?_⟩
            · intro td htd
              rcases List.mem_cons.mp htd with heq | hmem
              · subst heq
                exact ⟨by change w ≤ now; omega, by change now - w < threshold; omega⟩
              · exact hcur td hmem
            · intro t ht
              rcases List.mem_cons.mp ht with heq | hmem
              · subst heq
                exact ⟨w, hw, Or.inr (Or.inl ⟨by omega, h2, List.mem_cons_self _ _⟩)⟩
              · obtain ⟨w', hw', hcase⟩ := hall t hmem
                refine ⟨w', hw', ?_⟩
                rcases hcase with ha | ⟨hb, hc, hd⟩ | he
                · exact Or.inl ha
                · exact Or.inr (Or.inl ⟨hb, hc, List.mem_cons_of_mem _ hd⟩)
                · exact Or.inr (Or.inr he)
          · rw [if_neg h1, if_neg h2] at h
            simp only [Except.ok.injEq] at h
            subst h
            refine ⟨by simp [hlen]; omega, hup, hcur, ?_, ?_⟩
            · intro td htd
              rcases List.mem_cons.mp htd with heq | hmem
              · subst heq
                exact ⟨by change w ≤ now; omega, by change threshold ≤ now - w; omega⟩
              · exact hpast td hmem
            · intro t ht
              rcases List.mem_cons.mp ht with heq | hmem
              · subst heq
                exact ⟨w, hw, Or.inr (Or.inr ⟨by omega, by omega, List.mem_cons_self _ _⟩)⟩
              · obtain ⟨w', hw', hcase⟩ := hall t hmem
                refine ⟨w', hw', ?_⟩
                rcases hcase with ha | hb | ⟨hc, hd, he⟩
                · exact Or.inl ha
                · exact Or.inr (Or.inl hb)
                · exact Or.inr (Or.inr ⟨hc, hd, List.mem_cons_of_mem _ he⟩)

/-- C2: a successful classification computes, for each task, its due
instant from the schedule and the last completion, places it in upcoming
when due > now, in current when due <= now and now - due < the threshold,
and in past otherwise; the buckets are pairwise disjoint and their lengths
sum to the number of tasks in the ledger. -/
theorem claim_C2 (tm : TaskManager) (now : Int) (ts : Tasks)
    (h : tm.tasksAt now = .ok ts) :
    (ts.past.length + ts.current.length + ts.upcoming.length = tm.tasks.length) ∧
    (∀ task ∈ tm.tasks, ∃ w, task.schedule.next_instance task.last_done = .ok w ∧
      (if now < w then (⟨task.ty, w⟩ : TaskDue) ∈ ts.upcoming
       else if now - w < tm.task_threshold then (⟨task.ty, w⟩ : TaskDue) ∈ ts.current
       else (⟨task.ty, w⟩ : TaskDue) ∈ ts.past)) ∧
    (∀ td : TaskDue, ¬(td ∈ ts.upcoming ∧ td ∈ ts.current) ∧
      ¬(td ∈ ts.upcoming ∧ td ∈ ts.past) ∧ ¬(td ∈ ts.current ∧ td ∈ ts.past)) := by
  obtain ⟨hlen, hup, hcur, hpast, hall⟩ := classifyList_spec tm.task_threshold now tm.tasks ts h
  refine ⟨hlen, ?_, ?_⟩
  · intro task ht
    obtain ⟨w, hw, hcase⟩ := hall task ht
    refine ⟨w, hw, ?_⟩
    rcases hcase with ⟨ha, hb⟩ | ⟨ha, hb, hc⟩ | ⟨ha, hb, hc⟩
    · rw [if_pos ha]; exact hb
    · rw [if_neg (by omega), if_pos hb]; exact hc
    · rw [if_neg (by omega), if_neg (by omega)]; exact hc
  · intro td
    refine ⟨?_, ?_, ?_⟩
    · rintro ⟨h1, h2⟩
      have := hup td h1
      have := hcur td h2
      omega
    · rintro ⟨h1, h2⟩
      have := hup td h1
      have := hpast td h2
      omega
    · rintro ⟨h1, h2⟩
      have := hcur td h1
      have := hpast td h2
      omega

/-- Witness for C2 on a two-task ledger: an interval-100 task due in the
future and an interval-10 task currently due. -/
theorem claim_C2_witness :
    ∃ ts : Tasks,
      TaskManager.tasksAt ⟨[⟨.Eat, .Interval 100, 0⟩, ⟨.Drink, .Interval 10, 0⟩], 50⟩ 30 = .ok ts ∧
      ts.past.length + ts.current.length + ts.upcoming.length = 2 := by
  refine ⟨⟨[], [⟨.Drink, 10⟩], [⟨.Eat, 100⟩]⟩, by decide, ?_⟩
  exact (claim_C2 ⟨[⟨.Eat, .Interval 100, 0⟩, ⟨.Drink, .Interval 10, 0⟩], 50⟩ 30
    ⟨[], [⟨.Drink, 10⟩], [⟨.Eat, 100⟩]⟩ (by decide)).1

/- A classification fails exactly when some task's schedule resolution
fails. -/
theorem classifyList_error_iff (threshold now : Int) (l : List Task) :
    (∃ e, classifyList threshold now l = .error e) ↔
      ∃ task ∈ l, ∃ e, task.schedule.next_instance task.last_done = .error e := by
  induction l with
  | nil => simp [classifyList]
  | cons task rest ih =>
    constructor
    · rintro ⟨e, he⟩
      simp only [classifyList] at he
      split at he
      · rename_i e' hw
        cases he
        exact ⟨task, List.mem_cons_self _ _, e', hw⟩
      · split at he
        · rename_i e' hr
          cases he
          obtain ⟨t, ht, he⟩ := ih.mp ⟨e', hr⟩
          exact ⟨t, List.mem_cons_of_mem _ ht, he⟩
        · split at he
          · exact absurd he (by simp)
          · split at he <;> exact absurd he (by simp)
    · rintro ⟨t, ht, e, hte⟩
      rcases List.mem_cons.mp ht with heq | hmem
      · subst heq
        exact ⟨e, by simp only [classifyList]; rw [hte]⟩
      · cases hw : task.schedule.next_instance task.last_done with
        | error e' => exact ⟨e', by simp only [classifyList]; rw [hw]⟩
        | ok w =>
          obtain ⟨e', hr⟩ := ih.mpr ⟨t, hmem, e, hte⟩
          exact ⟨e', by simp only [classifyList]; rw [hw, hr]⟩

/-- C5: next_instance fails exactly on a Times schedule with an empty time
set (Interval and non-empty Times never fail); classification fails exactly
when some task's schedule resolution fails, and a failing classification is
never also an ok value (the error carries no partial lists, which the
Except type enforces). -/
theorem claim_C5 :
    (∀ (sch : Schedule) (now : Int),
      (∃ e, sch.next_instance now = .error e) ↔ sch = .Times (∅ : Finset Int)) ∧
    (∀ (tm : TaskManager) (now : Int),
      ((∃ e, tm.tasksAt now = .error e) ↔
        ∃ task ∈ tm.tasks, ∃ e, task.schedule.next_instance task.last_done = .error e) ∧
      (∀ e, tm.tasksAt now = .error e → ∀ ts : Tasks, tm.tasksAt now ≠ .ok ts)) := by
  constructor
  · intro sch now
    cases sch with
    | Interval d =>
      constructor
      · rintro ⟨e, he⟩
        exact absurd he (by simp [Schedule.next_instance])
      · intro h
        exact absurd h (by simp)
    | Times ts =>
      constructor
      · rintro ⟨e, he⟩
        simp only [Schedule.next_instance] at he
        by_cases h : (ts.filter fun x => timeOfDay now < x).Nonempty
        · rw [dif_pos h] at he
          exact absurd he (by simp)
        · rw [dif_neg h] at he
          by_cases h2 : ts.Nonempty
          · rw [dif_pos h2] at he
            exact absurd he (by simp)
          · rw [Finset.not_nonempty_iff_eq_empty.mp h2]
      · intro h
        cases h
        refine ⟨.noTimes, ?_⟩
        simp only [Schedule.next_instance]
        rw [dif_neg (by simp), dif_neg (by simp)]
  · intro tm now
    refine ⟨classifyList_error_iff tm.task_threshold now tm.tasks, ?_⟩
    intro e he ts hts
    rw [he] at hts
    exact Except.noConfusion hts

/-- C6: complete_tasks sets last_done = now on every task of the given
type (all duplicates at once) and leaves all other tasks unchanged; the
completed task then classifies as upcoming (and not current or past) at
every instant before its newly computed due instant. -/
theorem claim_C6 (tm : TaskManager) (ty : TaskType) (now : Int) :
    ((tm.complete_tasks ty now).tasks.length = tm.tasks.length) ∧
    (∀ i (h1 : i < tm.tasks.length) (h2 : i < (tm.complete_tasks ty now).tasks.length),
      (tm.complete_tasks ty now).tasks.get ⟨i, h2⟩ =
        (if (tm.tasks.get ⟨i, h1⟩).ty = ty
         then (tm.tasks.get ⟨i, h1⟩).complete now
         else tm.tasks.get ⟨i, h1⟩)) ∧
    (∀ task ∈ tm.tasks, task.ty = ty →
      ∀ t' w ts', task.schedule.next_instance now = .ok w → t' < w →
        (tm.complete_tasks ty now).tasksAt t' = .ok ts' →
        ((⟨ty, w⟩ : TaskDue) ∈ ts'.upcoming ∧ ¬(⟨ty, w⟩ : TaskDue) ∈ ts'.current ∧
          ¬(⟨ty, w⟩ : TaskDue) ∈ ts'.past)) := by
  refine ⟨by simp [TaskManager.complete_tasks], ?_, ?_⟩
  · intro i h1 h2
    simp [TaskManager.complete_tasks, List.get_eq_getElem, List.getElem_map]
  · intro task htask hty t' w ts' hw hlt hok
    obtain ⟨hlen, hup, hcur, hpast, hall⟩ :=
      classifyList_spec (tm.complete_tasks ty now).task_threshold t'
        (tm.complete_tasks ty now).tasks ts' hok
    have hmem : task.complete now ∈ (tm.complete_tasks ty now).tasks := by
      simp only [TaskManager.complete_tasks]
      refine List.mem_map.mpr ⟨task, htask, ?_⟩
      rw [if_pos hty]
    obtain ⟨w', hw', hcase⟩ := hall _ hmem
    have hsch : (task.complete now).schedule = task.schedule := rfl
    have hld : (task.complete now).last_done = now := rfl
    rw [hsch, hld, hw] at hw'
    cases hw'
    have htyc : (task.complete now).ty = ty := hty
    rw [htyc] at hcase
    rcases hcase with ⟨ha, hb⟩ | ⟨ha, hb, hc⟩ | ⟨ha, hb, hc⟩
    · refine ⟨hb, ?_, ?_⟩
      · intro hmem2
        have := (hcur _ hmem2).1
        change w ≤ t' at this
        omega
      · intro hmem2
        have := (hpast _ hmem2).1
        change w ≤ t' at this
        omega
    · omega
    · omega

/-- Witness for C6: a single interval-100 Eat task completed at instant 0
and classified at instant 50 is upcoming with due instant 100. -/
theorem claim_C6_witness :
    ∃ ts' : Tasks,
      (TaskManager.complete_tasks ⟨[⟨.Eat, .Interval 100, -5⟩], 10⟩ .Eat 0).tasksAt 50 = .ok ts' ∧
      (⟨.Eat, 100⟩ : TaskDue) ∈ ts'.upcoming := by
  refine ⟨⟨[], [], [⟨.Eat, 100⟩]⟩, by decide, ?_⟩
  exact ((claim_C6 ⟨[⟨.Eat, .Interval 100, -5⟩], 10⟩ .Eat 0).2.2
    ⟨.Eat, .Interval 100, -5⟩ (by decide) rfl 50 100 ⟨[], [], [⟨.Eat, 100⟩]⟩
    (by decide) (by decide) (by decide)).1

/- The closed vocabulary of animation keys accepted by the FromStr parser
(src/interface/lil_guy.rs lines 165-196): the defined variant set. -/
def definedKeys : List LilGuyAnimation :=
  [.Idle, .Walk, .WalkLeft, .WalkRight, .Sad 0, .Sad 1,
   .Want .Eat, .Want .Drink, .Want .BrushTeeth, .Want .Shower,
   .Want .EyesRest, .Want .TakeMeds, .Want .Sleep, .Want .Bathroom,
   .Task (.Other ""), .Task .Eat, .Task .Drink, .Task .BrushTeeth,
   .Task .Shower, .Task .EyesRest, .Task .TakeMeds, .Task .Sleep,
   .Task .Bathroom]

/- The chain of keys visited by iterating the fallback step from a key,
stopping at Idle (which has no fallback), cut off after the given number
of hops. -/
def fallbackChain : Nat → LilGuyAnimation → List LilGuyAnimation
  | _, .Idle => [.Idle]
  | 0, a => [a]
  | fuel + 1, a =>
    a :: (match a.fallback with
      | .ok b => fallbackChain fuel b
      | .error _ => [])

theorem LilGuyAnimation.fallback_ok_of_ne {k : LilGuyAnimation} (h : k ≠ .Idle) :
    ∃ b, k.fallback = .ok b := by
  cases k with
  | Idle => exact absurd rfl h
  | Walk => exact ⟨_, rfl⟩
  | WalkLeft => exact ⟨_, rfl⟩
  | WalkRight => exact ⟨_, rfl⟩
  | Sad n => cases n with
    | zero => exact ⟨_, rfl⟩
    | succ m => exact ⟨_, rfl⟩
  | Want t =>
    by_cases ht : t = .Other "" <;> simp [fallback, ht]
  | Task t =>
    by_cases ht : t = .Other "" <;> simp [fallback, ht]

theorem LilGuyAnimation.rank_eq_zero {k : LilGuyAnimation} (h : k.rank = 0) :
    k = .Idle := by
  cases k with
  | Idle => rfl
  | Walk => simp [rank] at h
  | WalkLeft => simp [rank] at h
  | WalkRight => simp [rank] at h
  | Sad n => simp [rank] at h
  | Want t => by_cases ht : t = .Other "" <;> simp [rank, ht] at h
  | Task t => by_cases ht : t = .Other "" <;> simp [rank, ht] at h

/- If the library defines Idle, resolution succeeds for every key. -/
theorem Animations.get_ok_of_idle (a : Animations)
    (hidle : (a.get_raw .Idle).isSome) : ∀ k, ∃ fs, a.get k = .ok fs := by
  have main : ∀ (n : Nat) (k : LilGuyAnimation), k.rank ≤ n → ∃ fs, a.get k = .ok fs := by
    intro n
    induction n with
    | zero =>
      intro k hk
      have hki : k = .Idle := LilGuyAnimation.rank_eq_zero (by omega)
      subst hki
      obtain ⟨fs, hfs⟩ := Option.isSome_iff_exists.mp hidle
      rw [Animations.get_eq, hfs]
      exact ⟨fs, rfl⟩
    | succ n ih =>
      intro k hk
      rw [Animations.get_eq]
      cases hr : a.get_raw k with
      | some fs => exact ⟨fs, rfl⟩
      | none =>
        have hki : k ≠ .Idle := by
          rintro rfl
          rw [hr] at hidle
          simp at hidle
        obtain ⟨b, hb⟩ := LilGuyAnimation.fallback_ok_of_ne hki
        rw [hb]
        exact ih b (by
          have := LilGuyAnimation.fallback_rank_lt hb
          omega)
  exact fun k => main k.rank k le_rfl

/-- C4: from every key of the defined variant set, iterating the fallback
step reaches Idle within 3 hops without ever revisiting a key; Idle itself
has no fallback (resolving it never recurses); and against any library
defining frames for Idle, resolution of every key terminates with some
frame list. -/
theorem claim_C4 :
    (∀ k ∈ definedKeys,
      (fallbackChain 3 k).getLast? = some .Idle ∧
      (fallbackChain 3 k).Nodup ∧
      (fallbackChain 3 k).length ≤ 4) ∧
    (LilGuyAnimation.Idle.fallback = .error .noFallbackForIdle) ∧
    (∀ a : Animations, (a.get_raw .Idle).isSome →
      ∀ k, ∃ fs, a.get k = .ok fs) := by
  refine ⟨by decide, rfl, ?_⟩
  exact fun a hidle k => a.get_ok_of_idle hidle k

/-- Witness for C4: resolving WalkLeft against a library that defines only
Idle succeeds. -/
theorem claim_C4_witness :
    ∃ fs, (Animations.load [(.Idle, [⟨100, [":3"]⟩])]).get .WalkLeft = .ok fs :=
  claim_C4.2.2 (Animations.load [(.Idle, [⟨100, [":3"]⟩])]) (by decide) .WalkLeft

/-- C9: the happiness score always lies in [0, 1], and equals exactly 1
when there are no past-due tasks — for every choice of square-root
function, timeouts and instant. -/
theorem claim_C9 (sqrtFn : ℚ → ℚ) (past : List TaskDue) (now : Int)
    (task_timeout task_timeout_max : Nat) :
    0 ≤ happinessScore sqrtFn past now task_timeout task_timeout_max ∧
    happinessScore sqrtFn past now task_timeout task_timeout_max ≤ 1 ∧
    (past = [] → happinessScore sqrtFn past now task_timeout task_timeout_max = 1) := by
  unfold happinessScore
  refine ⟨?_, ?_, ?_⟩
  · have h1 : min (max ((past.map fun task =>
        sqrtFn (max 0 ((((now - task.when : Int) : ℚ) - (task_timeout : ℚ)) /
          (task_timeout_max : ℚ)))).sum) 0) 1 ≤ 1 := min_le_right _ _
    linarith
  · have h2 : (0 : ℚ) ≤ min (max ((past.map fun task =>
        sqrtFn (max 0 ((((now - task.when : Int) : ℚ) - (task_timeout : ℚ)) /
          (task_timeout_max : ℚ)))).sum) 0) 1 :=
      le_min (le_max_right _ _) zero_le_one
    linarith
  · rintro rfl
    simp

/-- Witness for C9 at the identity square-root stand-in and an empty
past-due list. -/
theorem claim_C9_witness :
    0 ≤ happinessScore (fun x => x) [] 0 60 3600 ∧
    happinessScore (fun x => x) [] 0 60 3600 = 1 :=
  ⟨(claim_C9 (fun x => x) [] 0 60 3600).1,
   (claim_C9 (fun x => x) [] 0 60 3600).2.2 rfl⟩

/-- C3 describes what the happiness formula should use — the configured
task_timeout option as the overdue-window start and task_timeout_max as
the decay denominator — but InterfaceState::new (src/interface.rs line 98)
assigns conf.task_timeout_max to BOTH fields, so the computed happiness
uses task_timeout_max where the claim says task_timeout.  At the failing
input (task_timeout 60 s, task_timeout_max 3600 s, one task 1000 s past
due) the code computes happiness 1 while the claimed formula yields a
value strictly below 1. -/
theorem claim_C3 (sqrtFn : ℚ → ℚ) (h0 : sqrtFn 0 = 0)
    (hpos : ∀ x : ℚ, 0 < x → 0 < sqrtFn x) :
    interfaceHappiness ⟨60, 3600, []⟩ sqrtFn [⟨.Eat, 0⟩] 1000 = 1 ∧
    happinessScore sqrtFn [⟨.Eat, 0⟩] 1000 60 3600 < 1 := by
  constructor
  · unfold interfaceHappiness interfaceStateNew happinessScore
    simp only [List.map_cons, List.map_nil, List.sum_cons, List.sum_nil, add_zero]
    norm_num
    rw [h0]
    norm_num
  · unfold happinessScore
    simp only [List.map_cons, List.map_nil, List.sum_cons, List.sum_nil, add_zero]
    norm_num
    exact hpos _ (by norm_num)

/- Structural facts about the two phases of LilGuyState::update. -/

theorem LilGuyState.applyTransition_animations (s : LilGuyState)
    (o : Option LilGuyAnimation) (ic now : Nat) :
    (s.applyTransition o ic now).animations = s.animations := by
  cases o with
  | none => rfl
  | some na =>
    by_cases h : s.current_animation = na
    · simp [applyTransition, h]
    · simp [applyTransition, h]

theorem LilGuyState.applyTransition_current_some (s : LilGuyState)
    (na : LilGuyAnimation) (ic now : Nat) :
    (s.applyTransition (some na) ic now).current_animation = na := by
  by_cases h : s.current_animation = na
  · simp [applyTransition, h]
  · simp [applyTransition, h]

theorem LilGuyState.applyTransition_current_none (s : LilGuyState) (ic now : Nat) :
    (s.applyTransition none ic now).current_animation = s.current_animation := rfl

theorem LilGuyState.applyTransition_frame (s : LilGuyState)
    (o : Option LilGuyAnimation) (ic now : Nat) :
    (s.applyTransition o ic now).animation_frame = 0 ∨
      ((s.applyTransition o ic now).animation_frame = s.animation_frame ∧
        (s.applyTransition o ic now).current_animation = s.current_animation) := by
  cases o with
  | none => exact Or.inr ⟨rfl, rfl⟩
  | some na =>
    by_cases h : s.current_animation = na
    · exact Or.inr (by simp [applyTransition, h])
    · exact Or.inl (by simp [applyTransition, h])

theorem LilGuyState.updateFrame_spec (s1 : LilGuyState) (now : Nat) (s' : LilGuyState)
    (hu : s1.updateFrame now = some s') :
    s'.animations = s1.animations ∧
    s'.current_animation = s1.current_animation ∧
    ∃ anim, s1.animations.get s1.current_animation = .ok anim ∧
      ((s1.next_frame_time < now ∧ s'.animation_frame < anim.length) ∨
        (¬s1.next_frame_time < now ∧ s' = s1)) := by
  unfold updateFrame at hu
  split at hu
  · exact absurd hu (by simp)
  · rename_i anim hg
    split at hu
    · rename_i hadv
      simp only [] at hu
      split at hu
      · exact absurd hu (by simp)
      · rename_i frame hget
        simp only [Option.some.injEq] at hu
        subst hu
        have hlt : (if anim.length ≤ s1.animation_frame + 1 then 0
            else s1.animation_frame + 1) < anim.length := by
          have := List.get?_eq_some.mp hget
          exact this.1
        refine ⟨?_, ?_, anim, hg, Or.inl ⟨hadv, ?_⟩⟩ <;>
          split <;> simp_all
    · rename_i hadv
      simp only [Option.some.injEq] at hu
      subst hu
      exact ⟨rfl, rfl, anim, hg, Or.inr ⟨hadv, rfl⟩⟩

/- When the companion is inside the room bounds, no task is ongoing and
happiness is below 0.6, the transition choice is the unhappiness rule:
prefer the first overdue want with a directly defined Want animation,
otherwise the sadness animation at the computed level. -/
theorem chooseAnimation_sad (s : LilGuyState) (happiness : ℚ)
    (room_bounds : (Int × Int) × (Int × Int)) (wants : List TaskDue) (now : Nat)
    (rng : RngOracle)
    (hb1 : ¬s.pos.1 < room_bounds.1.1)
    (hb2 : ¬room_bounds.1.2 < s.pos.1 + (s.animations.max_bounds.1 : Int))
    (hh : happiness < 3 / 5) :
    chooseAnimation s happiness none room_bounds wants now rng =
      ((match wants.findSome? (fun t =>
          (s.animations.get_raw (.Want t.ty)).map fun _ => t.ty) with
        | some ty => some (.Want ty)
        | none => some (.Sad (sadLevelOf s.animations.max_sadness happiness))),
       s.idle_animation_change) := by
  unfold chooseAnimation
  rw [if_neg hb1, if_neg hb2]
  simp only []
  rw [if_pos hh]
  cases hf : wants.findSome? (fun t =>
      (s.animations.get_raw (.Want t.ty)).map fun _ => t.ty) with
  | some ty => simp
  | none => simp

/-- C7 as stated is false: the code clamps the computed sadness level to
the constant range [0, 1] (src/interface/lil_guy.rs line 232), not to
[0, max_sadness].  With a library whose highest defined sadness level is 0
and happiness 0, the level used is 1, while the claimed formula clamped to
[0, max_sadness] yields 0. -/
theorem claim_C7_counterexample :
    ∃ s', (LilGuyState.new (Animations.load [(.Idle, [⟨100, [":3"]⟩])]) (5, 10) 0).update 0 none
        ((-100, 100), (-100, 100)) [] 1 ⟨3, false, false, false⟩ = some s' ∧
      (Animations.load [(.Idle, [⟨100, [":3"]⟩])]).max_sadness = 0 ∧
      s'.current_animation = .Sad 1 ∧
      s'.current_animation ≠ .Sad (min
        (⌊((1 : ℚ) - 0 / (3 / 5)) *
          (((Animations.load [(.Idle, [⟨100, [":3"]⟩])]).max_sadness : ℚ) + 1)⌋.toNat)
        (Animations.load [(.Idle, [⟨100, [":3"]⟩])]).max_sadness) := by
  have hm : (Animations.load [(.Idle, [⟨100, [":3"]⟩])]).max_sadness = 0 := by decide
  have hlvl : sadLevelOf 0 (0 : ℚ) = 1 := by unfold sadLevelOf; norm_num
  have hchoose : chooseAnimation (LilGuyState.new (Animations.load [(.Idle, [⟨100, [":3"]⟩])]) (5, 10) 0)
      0 none ((-100, 100), (-100, 100)) [] 1 ⟨3, false, false, false⟩ = (some (.Sad 1), 0) := by
    rw [chooseAnimation_sad _ _ _ _ _ _ (by decide) (by decide) (by norm_num)]
    simp only [List.findSome?_nil]
    rw [show (LilGuyState.new (Animations.load [(.Idle, [⟨100, [":3"]⟩])]) (5, 10) 0).animations.max_sadness = 0 from hm]
    rw [hlvl]
    rfl
  have hu : (LilGuyState.new (Animations.load [(.Idle, [⟨100, [":3"]⟩])]) (5, 10) 0).update 0 none
      ((-100, 100), (-100, 100)) [] 1 ⟨3, false, false, false⟩ = some
        ((LilGuyState.new (Animations.load [(.Idle, [⟨100, [":3"]⟩])]) (5, 10) 0).applyTransition
          (some (.Sad 1)) 0 1) := by
    simp only [LilGuyState.update, hchoose]
    rfl
  refine ⟨_, hu, hm, rfl, ?_⟩
  rw [hm, LilGuyState.applyTransition_current_some]
  simp [Nat.min_zero]

/-- C7 amended: whenever the unhappiness rule fires (in bounds, no ongoing
task, happiness < 0.6, no overdue want with a defined Want animation), the
sadness level used equals floor((1 - happiness/0.6) * (max_sadness + 1))
clamped to [0, 1] — the code's clamp bound is the constant 1, not
max_sadness. -/
theorem claim_C7 (s : LilGuyState) (happiness : ℚ)
    (room_bounds : (Int × Int) × (Int × Int)) (wants : List TaskDue) (now : Nat)
    (rng : RngOracle) (s' : LilGuyState)
    (hb1 : ¬s.pos.1 < room_bounds.1.1)
    (hb2 : ¬room_bounds.1.2 < s.pos.1 + (s.animations.max_bounds.1 : Int))
    (hh : happiness < 3 / 5)
    (hw : wants.findSome? (fun t =>
      (s.animations.get_raw (.Want t.ty)).map fun _ => t.ty) = none)
    (hu : s.update happiness none room_bounds wants now rng = some s') :
    s'.current_animation = .Sad (min
      (⌊(1 - happiness / (3 / 5)) * ((s.animations.max_sadness : ℚ) + 1)⌋.toNat) 1) := by
  have hchoose := chooseAnimation_sad s happiness room_bounds wants now rng hb1 hb2 hh
  rw [hw] at hchoose
  simp only [LilGuyState.update, hchoose] at hu
  obtain ⟨-, hcur, -⟩ := LilGuyState.updateFrame_spec _ _ _ hu
  rw [hcur, LilGuyState.applyTransition_current_some]
  rfl

/-- Witness for C7 at a library with max sadness level 0 and happiness 0:
the level used is min(floor((1 - 0/0.6) * 1), 1) = 1. -/
theorem claim_C7_witness :
    ∃ s', (LilGuyState.new (Animations.load [(.Idle, [⟨100, [":3"]⟩])]) (5, 10) 0).update 0 none
        ((-100, 100), (-100, 100)) [] 1 ⟨3, false, false, false⟩ = some s' ∧
      s'.current_animation = .Sad (min
        (⌊((1 : ℚ) - 0 / (3 / 5)) *
          (((LilGuyState.new (Animations.load [(.Idle, [⟨100, [":3"]⟩])]) (5, 10) 0).animations.max_sadness : ℚ) + 1)⌋.toNat) 1) := by
  have hlvl : sadLevelOf 0 (0 : ℚ) = 1 := by unfold sadLevelOf; norm_num
  have hchoose : chooseAnimation (LilGuyState.new (Animations.load [(.Idle, [⟨100, [":3"]⟩])]) (5, 10) 0)
      0 none ((-100, 100), (-100, 100)) [] 1 ⟨3, false, false, false⟩ = (some (.Sad 1), 0) := by
    rw [chooseAnimation_sad _ _ _ _ _ _ (by decide) (by decide) (by norm_num)]
    simp only [List.findSome?_nil]
    rw [show (LilGuyState.new (Animations.load [(.Idle, [⟨100, [":3"]⟩])]) (5, 10) 0).animations.max_sadness = 0 from by decide]
    rw [hlvl]
    rfl
  have hu : (LilGuyState.new (Animations.load [(.Idle, [⟨100, [":3"]⟩])]) (5, 10) 0).update 0 none
      ((-100, 100), (-100, 100)) [] 1 ⟨3, false, false, false⟩ = some
        ((LilGuyState.new (Animations.load [(.Idle, [⟨100, [":3"]⟩])]) (5, 10) 0).applyTransition
          (some (.Sad 1)) 0 1) := by
    simp only [LilGuyState.update, hchoose]
    rfl
  exact ⟨_, hu, claim_C7 _ 0 ((-100, 100), (-100, 100)) [] 1 ⟨3, false, false, false⟩ _
    (by decide) (by decide) (by norm_num) (by simp) hu⟩

/-- C8: when the unhappiness rule fires, the companion switches to
Want(t) for an overdue task type t whose Want animation has frames defined
directly in the library (no fallback involved); when no overdue type has
one, it switches to the plain sadness animation at the computed level. -/
theorem claim_C8 (s : LilGuyState) (happiness : ℚ)
    (room_bounds : (Int × Int) × (Int × Int)) (wants : List TaskDue) (now : Nat)
    (rng : RngOracle) (s' : LilGuyState)
    (hb1 : ¬s.pos.1 < room_bounds.1.1)
    (hb2 : ¬room_bounds.1.2 < s.pos.1 + (s.animations.max_bounds.1 : Int))
    (hh : happiness < 3 / 5)
    (hu : s.update happiness none room_bounds wants now rng = some s') :
    ((∃ t ∈ wants, (s.animations.get_raw (.Want t.ty)).isSome) →
      ∃ ty, s'.current_animation = .Want ty ∧
        (s.animations.get_raw (.Want ty)).isSome ∧ ∃ t ∈ wants, t.ty = ty) ∧
    ((∀ t ∈ wants, s.animations.get_raw (.Want t.ty) = none) →
      s'.current_animation = .Sad (sadLevelOf s.animations.max_sadness happiness)) := by
  have hchoose := chooseAnimation_sad s happiness room_bounds wants now rng hb1 hb2 hh
  cases hf : wants.findSome? (fun t =>
      (s.animations.get_raw (.Want t.ty)).map fun _ => t.ty) with
  | some ty =>
    rw [hf] at hchoose
    simp only [LilGuyState.update, hchoose] at hu
    obtain ⟨-, hcur, -⟩ := LilGuyState.updateFrame_spec _ _ _ hu
    rw [LilGuyState.applyTransition_current_some] at hcur
    obtain ⟨t, ht, hft⟩ := List.exists_of_findSome?_eq_some hf
    constructor
    · intro _
      cases hraw : s.animations.get_raw (.Want t.ty) with
      | none => rw [hraw] at hft; exact absurd hft (by simp)
      | some fs =>
        rw [hraw] at hft
        simp at hft
        subst hft
        exact ⟨t.ty, hcur, by rw [hraw]; rfl, t, ht, rfl⟩
    · intro hnone
      rw [hnone t ht] at hft
      exact absurd hft (by simp)
  | none =>
    rw [hf] at hchoose
    simp only [LilGuyState.update, hchoose] at hu
    obtain ⟨-, hcur, -⟩ := LilGuyState.updateFrame_spec _ _ _ hu
    rw [LilGuyState.applyTransition_current_some] at hcur
    constructor
    · rintro ⟨t, ht, hsome⟩
      have hf2 := List.findSome?_eq_none_iff.mp hf t ht
      cases hraw : s.animations.get_raw (.Want t.ty) with
      | none => rw [hraw] at hsome; exact absurd hsome (by simp)
      | some fs => rw [hraw] at hf2; exact absurd hf2 (by simp)
    · intro _
      exact hcur

/-- Witness for C8, the end-to-end scenario of the claim: a library with
only Idle and Sad(0) frames, happiness 0.3, one overdue Eat task with no
Want animation defined; the companion resolves to Sad(0), not Want. -/
theorem claim_C8_witness :
    ∃ s', (LilGuyState.new (Animations.load
          [(.Idle, [⟨100, [":3"]⟩]), (.Sad 0, [⟨100, [":3"]⟩])]) (5, 10) 0).update
        (3 / 10) none ((-100, 100), (-100, 100)) [⟨.Eat, 0⟩] 1 ⟨3, false, false, false⟩ = some s' ∧
      s'.current_animation = .Sad 0 := by
  have hlvl : sadLevelOf 0 ((3 : ℚ) / 10) = 0 := by unfold sadLevelOf; norm_num
  have hchoose : chooseAnimation (LilGuyState.new (Animations.load
        [(.Idle, [⟨100, [":3"]⟩]), (.Sad 0, [⟨100, [":3"]⟩])]) (5, 10) 0)
      (3 / 10) none ((-100, 100), (-100, 100)) [⟨.Eat, 0⟩] 1 ⟨3, false, false, false⟩ =
      (some (.Sad 0), 0) := by
    rw [chooseAnimation_sad _ _ _ _ _ _ (by decide) (by decide) (by norm_num)]
    rw [show ([⟨.Eat, 0⟩] : List TaskDue).findSome? (fun t =>
        ((LilGuyState.new (Animations.load
          [(.Idle, [⟨100, [":3"]⟩]), (.Sad 0, [⟨100, [":3"]⟩])]) (5, 10) 0).animations.get_raw
          (.Want t.ty)).map fun _ => t.ty) = none from by decide]
    rw [show (LilGuyState.new (Animations.load
        [(.Idle, [⟨100, [":3"]⟩]), (.Sad 0, [⟨100, [":3"]⟩])]) (5, 10) 0).animations.max_sadness = 0
      from by decide]
    rw [hlvl]
    rfl
  have hu : (LilGuyState.new (Animations.load
        [(.Idle, [⟨100, [":3"]⟩]), (.Sad 0, [⟨100, [":3"]⟩])]) (5, 10) 0).update
      (3 / 10) none ((-100, 100), (-100, 100)) [⟨.Eat, 0⟩] 1 ⟨3, false, false, false⟩ = some
        ((LilGuyState.new (Animations.load
          [(.Idle, [⟨100, [":3"]⟩]), (.Sad 0, [⟨100, [":3"]⟩])]) (5, 10) 0).applyTransition
          (some (.Sad 0)) 0 1) := by
    simp only [LilGuyState.update, hchoose]
    rfl
  have h := claim_C8 _ (3 / 10) ((-100, 100), (-100, 100)) [⟨.Eat, 0⟩] 1
    ⟨3, false, false, false⟩ _ (by decide) (by decide) (by norm_num) hu
  refine ⟨_, hu, ?_⟩
  have h2 := h.2 (by decide)
  rw [h2]
  rw [show (LilGuyState.new (Animations.load
      [(.Idle, [⟨100, [":3"]⟩]), (.Sad 0, [⟨100, [":3"]⟩])]) (5, 10) 0).animations.max_sadness = 0
    from by decide]
  rw [hlvl]

/- Every frame list returned by get_raw is a value of the animation
table. -/
theorem Animations.get_raw_mem (a : Animations) {k : LilGuyAnimation}
    {fs : List AnimationFrame} (h : a.get_raw k = some fs) :
    ∃ p ∈ a.anims, p.2 = fs := by
  unfold Animations.get_raw at h
  cases hf : a.anims.find? (fun p => decide (p.1 = k)) with
  | none => rw [hf] at h; exact absurd h (by simp)
  | some p =>
    rw [hf] at h
    simp at h
    exact ⟨p, List.mem_of_find?_eq_some hf, h⟩

/- Every frame list returned by get is a value of the animation table
(resolution only substitutes keys, never frames). -/
theorem Animations.get_ok_mem (a : Animations) :
    ∀ (k : LilGuyAnimation) (fs : List AnimationFrame), a.get k = .ok fs →
      ∃ p ∈ a.anims, p.2 = fs := by
  have main : ∀ (n : Nat) (k : LilGuyAnimation), k.rank ≤ n →
      ∀ fs, a.get k = .ok fs → ∃ p ∈ a.anims, p.2 = fs := by
    intro n
    induction n with
    | zero =>
      intro k hk fs hfs
      have hki : k = .Idle := LilGuyAnimation.rank_eq_zero (by omega)
      subst hki
      rw [Animations.get_eq] at hfs
      split at hfs
      · rename_i fs' hr
        cases hfs
        exact a.get_raw_mem hr
      · split at hfs
        · rename_i fb hfb
          exact absurd hfb (by simp [LilGuyAnimation.fallback])
        · exact absurd hfs (by simp)
    | succ n ih =>
      intro k hk fs hfs
      rw [Animations.get_eq] at hfs
      split at hfs
      · rename_i fs' hr
        cases hfs
        exact a.get_raw_mem hr
      · split at hfs
        · rename_i fb hfb
          refine ih fb ?_ fs hfs
          have := LilGuyAnimation.fallback_rank_lt hfb
          omega
        · exact absurd hfs (by simp)
  exact fun k fs => main k.rank k le_rfl fs

/- The hypothesis of C10: every animation in the loaded library has at
least one frame. -/
def framesNonempty (a : Animations) : Prop := ∀ p ∈ a.anims, p.2 ≠ []

/- The invariant of C10: the frame cursor indexes into the frame list
resolved for the current animation key. -/
def FrameInv (s : LilGuyState) : Prop :=
  ∀ fs, s.animations.get s.current_animation = .ok fs → s.animation_frame < fs.length

/-- C10 (implicit): provided every animation in the loaded library has at
least one frame, the frame-in-bounds invariant holds at initialization and
is preserved by every successful update, whose resulting frame index is
strictly below the length of the frame list resolved for the resulting
animation key — so render's indexing of the current frame is in bounds. -/
theorem claim_C10 :
    (∀ (a : Animations) (idle_time : Nat × Nat) (now0 : Nat),
      framesNonempty a → FrameInv (LilGuyState.new a idle_time now0)) ∧
    (∀ (s : LilGuyState) (happiness : ℚ) (ongoing_task : Option TaskType)
        (room_bounds : (Int × Int) × (Int × Int)) (wants : List TaskDue) (now : Nat)
        (rng : RngOracle) (s' : LilGuyState),
      framesNonempty s.animations → FrameInv s →
      s.update happiness ongoing_task room_bounds wants now rng = some s' →
      FrameInv s' ∧ ∃ fs, s'.animations.get s'.current_animation = .ok fs ∧
        s'.animation_frame < fs.length) := by
  have hlen : ∀ (a : Animations), framesNonempty a →
      ∀ (k : LilGuyAnimation) (fs : List AnimationFrame), a.get k = .ok fs → 0 < fs.length := by
    intro a hne k fs hfs
    obtain ⟨p, hp, hpf⟩ := a.get_ok_mem k fs hfs
    have hne2 := hne p hp
    rw [hpf] at hne2
    exact List.length_pos.mpr hne2
  constructor
  · intro a idle_time now0 hne fs hfs
    exact hlen a hne _ fs hfs
  · intro s happiness ongoing_task room_bounds wants now rng s' hne hinv hu
    rcases hcs : chooseAnimation s happiness ongoing_task room_bounds wants now rng with ⟨o1, ic⟩
    simp only [LilGuyState.update, hcs] at hu
    obtain ⟨hanim, hcur, anim, hg, hcase⟩ := LilGuyState.updateFrame_spec _ _ _ hu
    have hATanim : (s.applyTransition o1 ic now).animations = s.animations :=
      LilGuyState.applyTransition_animations s o1 ic now
    have key : s'.animation_frame < anim.length := by
      rcases hcase with ⟨-, hlt⟩ | ⟨-, heq⟩
      · exact hlt
      · rw [heq]
        rcases LilGuyState.applyTransition_frame s o1 ic now with hf0 | ⟨hfe, hce⟩
        · rw [hf0]
          rw [hATanim] at hg
          exact hlen s.animations hne _ anim hg
        · rw [hfe]
          rw [hATanim, hce] at hg
          exact hinv anim hg
    have hg' : s'.animations.get s'.current_animation = .ok anim := by
      rw [hanim, hcur]
      exact hg
    refine ⟨?_, anim, hg', key⟩
    intro fs hfs
    rw [hg'] at hfs
    cases hfs
    exact key

/-- Witness for C10: a library defining only Idle with one frame, a tick
that changes nothing; the resulting frame index 0 is within the one-frame
list resolved for Idle. -/
theorem claim_C10_witness :
    ∃ s', (LilGuyState.new (Animations.load [(.Idle, [⟨100, [":3"]⟩])]) (5, 10) 0).update
        1 none ((-100, 100), (-100, 100)) [] 0 ⟨3, false, false, false⟩ = some s' ∧
      ∃ fs, s'.animations.get s'.current_animation = .ok fs ∧
        s'.animation_frame < fs.length := by
  have hchoose : chooseAnimation (LilGuyState.new (Animations.load [(.Idle, [⟨100, [":3"]⟩])]) (5, 10) 0)
      1 none ((-100, 100), (-100, 100)) [] 0 ⟨3, false, false, false⟩ = (none, 0) := by
    unfold chooseAnimation
    rw [if_neg (by decide), if_neg (by decide)]
    simp only []
    rw [if_neg (by norm_num), if_neg (by decide), if_neg (by decide)]
    rfl
  have hu : (LilGuyState.new (Animations.load [(.Idle, [⟨100, [":3"]⟩])]) (5, 10) 0).update
      1 none ((-100, 100), (-100, 100)) [] 0 ⟨3, false, false, false⟩ = some
        ((LilGuyState.new (Animations.load [(.Idle, [⟨100, [":3"]⟩])]) (5, 10) 0).applyTransition
          none 0 0) := by
    simp only [LilGuyState.update, hchoose]
    rfl
  have hne : framesNonempty (Animations.load [(.Idle, [⟨100, [":3"]⟩])]) := by
    unfold framesNonempty
    decide
  have hinv : FrameInv (LilGuyState.new (Animations.load [(.Idle, [⟨100, [":3"]⟩])]) (5, 10) 0) := by
    intro fs hfs
    rw [show (LilGuyState.new (Animations.load [(.Idle, [⟨100, [":3"]⟩])]) (5, 10) 0).animations.get
        (LilGuyState.new (Animations.load [(.Idle, [⟨100, [":3"]⟩])]) (5, 10) 0).current_animation =
        .ok [⟨100, [":3"]⟩] from by decide] at hfs
    cases hfs
    decide
  exact ⟨_, hu, (claim_C10.2 _ 1 none ((-100, 100), (-100, 100)) [] 0
    ⟨3, false, false, false⟩ _ hne hinv hu).2⟩

/-- Witness for C3 with the identity function standing in for f32::sqrt
(it satisfies sqrtFn 0 = 0 and positivity): at the failing input the code
computes happiness exactly 1 although the claimed formula is below 1. -/
theorem claim_C3_witness :
    interfaceHappiness ⟨60, 3600, []⟩ (fun x => x) [⟨.Eat, 0⟩] 1000 = 1 ∧
    happinessScore (fun x => x) [⟨.Eat, 0⟩] 1000 60 3600 < 1 :=
  claim_C3 (fun x => x) rfl (fun _ hx => hx)

/-- Witness for C5: the empty Times schedule fails. -/
theorem claim_C5_witness :
    ∃ e, (Schedule.Times (∅ : Finset Int)).next_instance 0 = .error e :=
  (claim_C5.1 (.Times ∅) 0).mpr rfl

end Tuigotchi
